import Mathlib

/-!
Verification of the coroutine channel library (native backend `coroutine.c`
and the pthread fallback `coroutine_using_pthreads.c`).

The development has two layers, both translated from the C source:

* a functional layer (`ChannelC`, `fromC`, `yield_toC`, `springboardC`,
  `close_and_joinC`, `coroutine_create_given_memoryC`) that embeds each API
  function as a pure function on the channel record.  The effect of the
  architecture `SWAP_CONTEXT` primitive (suspend here, run the peer, resume
  when the peer swaps back) is abstracted as an oracle
  `swap : ChannelC → ChannelC` giving the channel contents observed when the
  swap returns;

* an interaction layer (`Sys`, `step`, `run`) that embeds the rendezvous
  protocol between the two parties of one channel as a small-step transition
  system.  Each step is one atomic phase of an API call (a deposit-and-swap,
  the tail of `from` after its optional swap, the springboard prologue, the
  springboard epilogue, a resumption).  Control strictly alternates: the
  `turn` field records which party runs, and every `SWAP_CONTEXT` moves it to
  the peer.  Steps whose real execution would be undefined behaviour
  (swapping into the dead child context after the springboard's final swap)
  are unavailable (`none`).
-/

namespace Coroutine

/-- One of the two parties of a channel. -/
inductive Party where
  | parent
  | child
deriving DecidableEq

/-- The other party. -/
def Party.peer : Party → Party
  | .parent => .child
  | .child => .parent

/-- A pointer-sized value travelling through the channel `value` slot:
`nil` is C `NULL`, `notFilled` is the private sentinel
`static void * const not_filled` (an address no user datum can equal),
and `ptr n` is any other datum. -/
inductive Val where
  | nil
  | notFilled
  | ptr (n : Nat)
deriving DecidableEq

/-- A value is a user datum when it is neither `NULL` (end of stream) nor
the `not_filled` sentinel. -/
def Val.isUserDatum : Val → Bool
  | .nil => false
  | .notFilled => false
  | .ptr _ => true

/-! ## Functional layer: the channel record and the API functions -/

/-- The channel record of the native backend (`struct channel` in
`coroutine.c`), without the opaque `context_inactive` buffer (pure machine
state).  `func` is the child entry function (`none` models the `NULL` it is
set to when the child has returned); `value` is the single-slot rendezvous
cell; `free_after`/`free_func` are the release hook recorded only by the
allocator-based constructor. -/
structure ChannelC where
  func : Option Nat
  value : Val
  free_after : Val
  free_func : Option Nat
deriving DecidableEq

/-- Result of one call to `from`: the channel contents afterwards, the
returned value, the number of `SWAP_CONTEXT` executions performed, and the
release function invoked (if any). -/
structure FromResult where
  channel : ChannelC
  ret : Val
  swaps : Nat
  released : Option Nat
deriving DecidableEq

/-- `from(channel)` from `coroutine.c`:
if `channel->func && not_filled == channel->value` swap once; then if
`!channel->func` invoke the release hook if recorded and return `NULL`;
otherwise take `channel->value`, replace it with `not_filled`, return it.
The `swap` argument is the contents of the channel when `SWAP_CONTEXT`
returns control to this party. -/
def fromC (swap : ChannelC → ChannelC) (ch : ChannelC) : FromResult :=
  let p := if ch.func.isSome ∧ ch.value = Val.notFilled then (swap ch, 1) else (ch, 0)
  let ch1 := p.1
  if ch1.func = none then
    { channel := ch1, ret := Val.nil, swaps := p.2, released := ch1.free_func }
  else
    { channel := { ch1 with value := Val.notFilled }, ret := ch1.value,
      swaps := p.2, released := none }

/-- `yield_to(channel, pointer)` from `coroutine.c`: store the payload in
the value slot, then swap. -/
def yield_toC (swap : ChannelC → ChannelC) (ch : ChannelC) (v : Val) : ChannelC :=
  swap { ch with value := v }

/-- `coroutine_switch(channel)` from `coroutine.c`: swap only when the child
entry function has not yet returned. -/
def coroutine_switchC (swap : ChannelC → ChannelC) (ch : ChannelC) : ChannelC :=
  if ch.func.isSome then swap ch else ch

/-- `springboard(channel)` from `coroutine.c`, the first code run on the
child stack: read the user argument out of the value slot, replace the slot
with the sentinel, run the child entry function, null the entry pointer,
and perform the final swap back to the parent.  The entry function is
abstracted as its effect on the channel given its argument. -/
def springboardC (entry : ChannelC → Val → ChannelC) (swap : ChannelC → ChannelC)
    (ch : ChannelC) : ChannelC :=
  let arg := ch.value
  let ch1 := entry { ch with value := Val.notFilled } arg
  swap { ch1 with func := none }

/-- `close_and_join(channel)` from `coroutine.c`:
`while (channel->func) yield_to(channel, NULL); if (free_func) free_func(free_after);`.
Each loop iteration deposits `NULL` and swaps; the oracle list gives the
channel contents seen when each of those swaps returns (the child's
responses).  The result is the final channel, the number of `yield_to`
iterations performed, and the release function invoked (if recorded);
`none` means the oracle was exhausted before the loop exited. -/
def close_and_joinC : List (ChannelC → ChannelC) → ChannelC → Option (ChannelC × Nat × Option Nat)
  | oracle, ch =>
    if ch.func = none then some (ch, 0, ch.free_func)
    else
      match oracle with
      | [] => none
      | f :: rest =>
        (close_and_joinC rest (f { ch with value := Val.nil })).map
          (fun r => (r.1, r.2.1 + 1, r.2.2))

/-- Result of `coroutine_create_given_memory`: the address of the channel
record inside the caller's block and the record's initial contents. -/
structure CreateResult where
  addr : Nat
  channel : ChannelC
deriving DecidableEq

/-- `coroutine_create_given_memory(func, arg, block, blocksize)` from
`coroutine.c`, up to (not including) the `BOOTSTRAP_CONTEXT` jump into the
springboard: the record address is
`block + ((blocksize - sizeof(struct channel)) & ~(STACK_ALIGNMENT - 1))`
with `size_t` 64 bits wide, so for a power-of-two alignment the mask
`~(STACK_ALIGNMENT - 1)` is `2^64 - STACK_ALIGNMENT`; the record is
initialised with `.func = func, .value = arg` and every unlisted field
zeroed (`free_after = NULL`, `free_func = NULL`). -/
def coroutine_create_given_memoryC (func : Nat) (arg : Val)
    (block blocksize szChannel align : Nat) : CreateResult :=
  { addr := block + ((blocksize - szChannel) &&& (2 ^ 64 - align)),
    channel := { func := some func, value := arg, free_after := Val.nil, free_func := none } }

/-! ## Interaction layer: the two-party rendezvous protocol -/

/-- Control location of a party between atomic steps.  `user` is inside the
party's own code (entry function or parent code); `springStart` is the child
before the springboard prologue has run; `suspYield` / `suspFrom` /
`suspSwitch` / `suspCreate` are suspended at the `SWAP_CONTEXT` inside
`yield_to` / `from` / `coroutine_switch` / `coroutine_create_given_memory`
(the `BOOTSTRAP_CONTEXT` save); `fromTail` is about to run the part of
`from` after its optional swap; `dead` is the child after the springboard's
final swap (its saved context must never be entered again). -/
inductive Ctl where
  | user
  | springStart
  | suspYield
  | suspFrom
  | fromTail
  | suspSwitch
  | suspCreate
  | dead
deriving DecidableEq

/-- Whole-channel state: whether `channel->func` is still non-`NULL`, the
contents of the `value` slot, which party currently runs, and each party's
control location. -/
structure Sys where
  funcActive : Bool
  value : Val
  turn : Party
  parentCtl : Ctl
  childCtl : Ctl
deriving DecidableEq

/-- Control location of a given party. -/
def Sys.ctlOf (s : Sys) : Party → Ctl
  | .parent => s.parentCtl
  | .child => s.childCtl

/-- Replace the control location of a given party. -/
def Sys.setCtl (s : Sys) : Party → Ctl → Sys
  | .parent, c => { s with parentCtl := c }
  | .child, c => { s with childCtl := c }

/-- A suspended control location that a `SWAP_CONTEXT` may legally enter.
Entering the `dead` context (or a context that was never saved) is
undefined behaviour and makes the corresponding step unavailable. -/
def resumable : Ctl → Bool
  | .suspYield => true
  | .suspFrom => true
  | .suspSwitch => true
  | .suspCreate => true
  | _ => false

/-- Observable events of a run: `arg v` — the springboard handed `v` to the
child entry function; `dep v` — a `yield_to` stored `v` in the value slot;
`con v` — a `from` call returned `v` to its caller. -/
inductive Ev where
  | arg (v : Val)
  | dep (v : Val)
  | con (v : Val)
deriving DecidableEq

/-- Atomic phases of the API operations, as chosen by the two parties.
`springInit` is the springboard prologue; `yield v` is the deposit and swap
of `yield_to`; `fromStart` is the head of `from` (its conditional swap);
`fromFinish` is the tail of `from`; `switchCall` is `coroutine_switch`;
`entryReturn` is the springboard epilogue after the child entry function
returns (`func = NULL` and the final swap); `resume` is a suspended party
continuing after a swap handed control back to it. -/
inductive Act where
  | springInit
  | yield (v : Val)
  | fromStart
  | fromFinish
  | switchCall
  | entryReturn
  | resume
deriving DecidableEq

/-- One atomic step of the running party `s.turn`, returning the next state
and the events emitted, or `none` when the chosen phase is not enabled
(wrong control location, wrong party, or a swap into a non-resumable
context). -/
def step (s : Sys) (a : Act) : Option (Sys × List Ev) :=
  match a with
  | .springInit =>
    -- springboard prologue: arg = channel->value; channel->value = not_filled;
    -- then the child entry function starts running
    if s.turn = Party.child ∧ s.childCtl = Ctl.springStart then
      some ({ s with value := Val.notFilled, childCtl := Ctl.user }, [Ev.arg s.value])
    else none
  | .yield v =>
    -- yield_to: channel->value = pointer; SWAP_CONTEXT(channel)
    if s.ctlOf s.turn = Ctl.user ∧ v ≠ Val.notFilled ∧ resumable (s.ctlOf s.turn.peer) then
      some (({ s with value := v, turn := s.turn.peer }).setCtl s.turn Ctl.suspYield, [Ev.dep v])
    else none
  | .fromStart =>
    -- from, first half: if (channel->func && not_filled == channel->value) SWAP_CONTEXT
    if s.ctlOf s.turn = Ctl.user then
      if s.funcActive = true ∧ s.value = Val.notFilled then
        if resumable (s.ctlOf s.turn.peer) then
          some (({ s with turn := s.turn.peer }).setCtl s.turn Ctl.suspFrom, [])
        else none
      else some (s.setCtl s.turn Ctl.fromTail, [])
    else none
  | .fromFinish =>
    -- from, second half: if (!channel->func) return NULL;
    -- ret = channel->value; channel->value = not_filled; return ret
    if s.ctlOf s.turn = Ctl.fromTail then
      if s.funcActive = true then
        some (({ s with value := Val.notFilled }).setCtl s.turn Ctl.user, [Ev.con s.value])
      else some (s.setCtl s.turn Ctl.user, [Ev.con Val.nil])
    else none
  | .switchCall =>
    -- coroutine_switch: if (channel->func) SWAP_CONTEXT(channel)
    if s.ctlOf s.turn = Ctl.user then
      if s.funcActive = true then
        if resumable (s.ctlOf s.turn.peer) then
          some (({ s with turn := s.turn.peer }).setCtl s.turn Ctl.suspSwitch, [])
        else none
      else some (s, [])
    else none
  | .entryReturn =>
    -- springboard epilogue: channel->func = NULL; SWAP_CONTEXT(channel);
    -- the child context is never entered again
    if s.turn = Party.child ∧ s.childCtl = Ctl.user ∧ resumable s.parentCtl then
      some ({ s with funcActive := false, childCtl := Ctl.dead, turn := Party.parent }, [])
    else none
  | .resume =>
    -- a swap handed control back: the suspended API call continues
    match s.ctlOf s.turn with
    | .suspYield => some (s.setCtl s.turn Ctl.user, [])
    | .suspSwitch => some (s.setCtl s.turn Ctl.user, [])
    | .suspCreate => some (s.setCtl s.turn Ctl.user, [])
    | .suspFrom => some (s.setCtl s.turn Ctl.fromTail, [])
    | _ => none

/-- Run a list of atomic steps, collecting the emitted events.  `none` when
some step is not enabled. -/
def run : Sys → List Act → Option (Sys × List Ev)
  | s, [] => some (s, [])
  | s, a :: rest =>
    match step s a with
    | none => none
    | some (s1, e1) =>
      match run s1 rest with
      | none => none
      | some (s2, e2) => some (s2, e1 ++ e2)

/-- Channel state right after `coroutine_create_given_memory` has stored the
record and `BOOTSTRAP_CONTEXT` has saved the parent context and jumped to
the springboard: the entry function is recorded, the value slot holds the
creation argument, the child is about to run the springboard, and the
parent is suspended inside the constructor. -/
def initSys (arg : Val) : Sys :=
  { funcActive := true, value := arg, turn := Party.child,
    parentCtl := Ctl.suspCreate, childCtl := Ctl.springStart }

/-- The user data deposited by `yield_to` calls in a run, in order. -/
def userDeps (evs : List Ev) : List Val :=
  evs.filterMap fun e =>
    match e with
    | .dep v => if v.isUserDatum then some v else none
    | _ => none

/-- The user data returned by `from` calls in a run, in order. -/
def userCons (evs : List Ev) : List Val :=
  evs.filterMap fun e =>
    match e with
    | .con v => if v.isUserDatum then some v else none
    | _ => none

/-- The user datum currently awaiting consumption in the value slot.
Before the springboard prologue the slot holds the creation argument, which
is destined for the child entry function, not for `from`. -/
def pendingOf (s : Sys) : List Val :=
  if s.childCtl = Ctl.springStart then []
  else if s.value.isUserDatum then [s.value] else []

/-- A run is disciplined when every `yield_to` deposit happens while the
value slot is logically empty (holds the sentinel), so no datum is
overwritten. -/
def disciplinedRun : Sys → List Act → Bool
  | _, [] => true
  | s, a :: rest =>
    (match a with
     | .yield _ => s.value = Val.notFilled
     | _ => true) &&
    (match step s a with
     | none => true
     | some (s1, _) => disciplinedRun s1 rest)

/-! ## Arithmetic helper for the record placement -/

/-- For a power-of-two alignment `2 ^ k` and a 64-bit operand, the C mask
expression `x & ~(align - 1)` (whose mask value is `2 ^ 64 - 2 ^ k` in
64-bit `size_t`) rounds `x` down to a multiple of the alignment. -/
theorem land_mask_eq_alignDown (k x : Nat) (hk : k ≤ 64) (hx : x < 2 ^ 64) :
    x &&& (2 ^ 64 - 2 ^ k) = 2 ^ k * (x / 2 ^ k) := by
  have hm : 2 ^ 64 - 2 ^ k = 2 ^ k * (2 ^ (64 - k) - 1) := by
    have h1 : 2 ^ k * 2 ^ (64 - k) = 2 ^ 64 := by
      rw [← pow_add]
      congr 1
      omega
    rw [Nat.mul_sub_left_distrib, h1, Nat.mul_one]
  rw [hm]
  apply Nat.eq_of_testBit_eq
  intro i
  have hdiv : x / 2 ^ k = x >>> k := (Nat.shiftRight_eq_div_pow x k).symm
  rw [Nat.testBit_and, Nat.testBit_mul_pow_two, Nat.testBit_mul_pow_two,
    Nat.testBit_two_pow_sub_one, hdiv, Nat.testBit_shiftRight]
  by_cases hik : k ≤ i
  · have hki : k + (i - k) = i := by omega
    rw [hki]
    by_cases hi64 : i < 64
    · have hlt : i - k < 64 - k := by omega
      simp [ge_iff_le, hik, hlt]
    · have hxi : x.testBit i = false :=
        Nat.testBit_lt_two_pow
          (lt_of_lt_of_le hx (Nat.pow_le_pow_right (by norm_num) (by omega)))
      simp [hxi]
  · simp [ge_iff_le, hik]

/-! ## Claims about the functional layer -/

/-- C1: every call to `from(ctx)` first performs exactly one swap when the
entry is not yet empty and the value slot holds the empty sentinel (and no
swap otherwise); then, if the entry is empty, it invokes the release hook
exactly when one is recorded and returns the nil end-of-stream marker,
leaving the slot untouched; otherwise it returns the current slot contents,
replaces the slot with the empty sentinel, and invokes no hook. -/
theorem from_meets_spec (swap : ChannelC → ChannelC) (ch : ChannelC) :
    (fromC swap ch).swaps = (if ch.func.isSome ∧ ch.value = Val.notFilled then 1 else 0) ∧
    (let ch1 := if ch.func.isSome ∧ ch.value = Val.notFilled then swap ch else ch
     if ch1.func = none then
       (fromC swap ch).ret = Val.nil ∧ (fromC swap ch).released = ch1.free_func ∧
         (fromC swap ch).channel = ch1
     else
       (fromC swap ch).ret = ch1.value ∧ (fromC swap ch).channel = { ch1 with value := Val.notFilled } ∧
         (fromC swap ch).released = none) := by
  unfold fromC
  by_cases h1 : ch.func.isSome ∧ ch.value = Val.notFilled <;>
    simp only [h1, if_true, if_false, ite_true, ite_false]
  · by_cases h2 : (swap ch).func = none <;> simp_all
  · by_cases h2 : ch.func = none <;> simp_all

/-- C5: `close_and_join` performs no `yield_to` on a channel whose child
has already terminated and invokes the release hook exactly when one is
recorded (idempotent close, no deadlock); and when the entry is still
active but the child is well behaved — its response to the nil deposit of
the first loop iteration leaves the entry empty — the loop terminates after
exactly one `yield_to(ctx, nil)` and then invokes the release hook exactly
when one is recorded. -/
theorem close_and_join_meets_spec :
    (∀ (oracle : List (ChannelC → ChannelC)) (ch : ChannelC), ch.func = none →
      close_and_joinC oracle ch = some (ch, 0, ch.free_func)) ∧
    (∀ (f : ChannelC → ChannelC) (rest : List (ChannelC → ChannelC)) (ch : ChannelC),
      ch.func ≠ none → (f { ch with value := Val.nil }).func = none →
      close_and_joinC (f :: rest) ch =
        some (f { ch with value := Val.nil }, 1, (f { ch with value := Val.nil }).free_func)) ∧
    (∀ (oracle : List (ChannelC → ChannelC)) (ch : ChannelC) (res : ChannelC × Nat × Option Nat),
      close_and_joinC oracle ch = some res →
      res.1.func = none ∧ res.2.2 = res.1.free_func) := by
  refine ⟨?_, ?_, ?_⟩
  · intro oracle ch h
    unfold close_and_joinC
    simp [h]
  · intro f rest ch h hwb
    unfold close_and_joinC
    simp only [h, if_false]
    unfold close_and_joinC
    simp [hwb]
  · intro oracle
    induction oracle with
    | nil =>
      intro ch res hres
      unfold close_and_joinC at hres
      by_cases h : ch.func = none
      · simp only [h, ite_true, if_true, Option.some.injEq] at hres
        subst hres
        exact ⟨h, rfl⟩
      · simp [h] at hres
    | cons f rest ih =>
      intro ch res hres
      unfold close_and_joinC at hres
      by_cases h : ch.func = none
      · simp only [h, ite_true, if_true, Option.some.injEq] at hres
        subst hres
        exact ⟨h, rfl⟩
      · simp only [h, ite_false, if_false] at hres
        rw [Option.map_eq_some'] at hres
        obtain ⟨r0, hr0, hmap⟩ := hres
        have hres0 := ih _ r0 hr0
        rw [← hmap]
        exact ⟨hres0.1, hres0.2⟩

/-- C8: for a block aligned to the (power-of-two) architecture stack
alignment and a blocksize at least the size of the channel record,
`coroutine_create_given_memory` is total (it cannot fail) and places the
channel record inside the block at offset
`(blocksize - sizeof(struct channel))` rounded down to a multiple of the
stack alignment, with the `func` field equal to the given entry function
and the `value` slot equal to the given argument. -/
theorem create_given_memory_meets_spec (func : Nat) (arg : Val)
    (block blocksize szChannel k : Nat)
    (halign : block % 2 ^ k = 0) (hk : k ≤ 64)
    (hsz : szChannel ≤ blocksize) (hbs : blocksize < 2 ^ 64) :
    (coroutine_create_given_memoryC func arg block blocksize szChannel (2 ^ k)).addr
        = block + 2 ^ k * ((blocksize - szChannel) / 2 ^ k) ∧
    (coroutine_create_given_memoryC func arg block blocksize szChannel (2 ^ k)).channel.func
        = some func ∧
    (coroutine_create_given_memoryC func arg block blocksize szChannel (2 ^ k)).channel.value
        = arg := by
  refine ⟨?_, rfl, rfl⟩
  unfold coroutine_create_given_memoryC
  simp only
  rw [land_mask_eq_alignDown k _ hk (by omega)]

/-- Witness for C8 at a concrete input: alignment 64, block at address 128,
blocksize 1024, record size 40. -/
theorem create_given_memory_meets_spec_witness :
    (128 : Nat) % 2 ^ 6 = 0 ∧ (6 : Nat) ≤ 64 ∧ (40 : Nat) ≤ 1024 ∧ (1024 : Nat) < 2 ^ 64 ∧
    (coroutine_create_given_memoryC 3 (Val.ptr 9) 128 1024 40 (2 ^ 6)).addr
        = 128 + 2 ^ 6 * ((1024 - 40) / 2 ^ 6) :=
  ⟨by norm_num, by norm_num, by norm_num, by norm_num,
    (create_given_memory_meets_spec 3 (Val.ptr 9) 128 1024 40 6 (by norm_num) (by norm_num)
      (by norm_num) (by norm_num)).1⟩

/-- A channel record carries no release hook: the hook fields hold the
zero values that `coroutine_create_given_memory` writes. -/
def noHook (ch : ChannelC) : Prop :=
  ch.free_func = none ∧ ch.free_after = Val.nil

/-- C10: `coroutine_create_given_memory` leaves both release-hook fields
zeroed, and no API operation ever sets them — provided the peer's
operations during a swap do not either (hypothesis on the oracle), a
hook-free channel stays hook-free across `yield_to`, `from`,
`coroutine_switch` and `close_and_join`, and `from` and `close_and_join`
never invoke any release function on it: the caller-supplied block is never
freed by the library. -/
theorem given_memory_channel_never_released :
    (∀ (func : Nat) (arg : Val) (block blocksize szChannel align : Nat),
      noHook (coroutine_create_given_memoryC func arg block blocksize szChannel align).channel) ∧
    (∀ (swap : ChannelC → ChannelC) (ch : ChannelC) (v : Val),
      (∀ c, noHook c → noHook (swap c)) → noHook ch → noHook (yield_toC swap ch v)) ∧
    (∀ (swap : ChannelC → ChannelC) (ch : ChannelC),
      (∀ c, noHook c → noHook (swap c)) → noHook ch →
      noHook (fromC swap ch).channel ∧ (fromC swap ch).released = none) ∧
    (∀ (swap : ChannelC → ChannelC) (ch : ChannelC),
      (∀ c, noHook c → noHook (swap c)) → noHook ch →
      noHook (coroutine_switchC swap ch)) ∧
    (∀ (oracle : List (ChannelC → ChannelC)) (ch : ChannelC),
      (∀ f ∈ oracle, ∀ c, noHook c → noHook (f c)) → noHook ch →
      ∀ r, close_and_joinC oracle ch = some r → noHook r.1 ∧ r.2.2 = none) := by
  refine ⟨?_, ?_, ?_, ?_, ?_⟩
  · intro func arg block blocksize szChannel align
    exact ⟨rfl, rfl⟩
  · intro swap ch v hswap hch
    exact hswap _ ⟨hch.1, hch.2⟩
  · intro swap ch hswap hch
    unfold fromC
    by_cases h1 : ch.func.isSome ∧ ch.value = Val.notFilled <;>
      simp only [h1, if_true, if_false, ite_true, ite_false]
    · have hs := hswap _ hch
      by_cases h2 : (swap ch).func = none <;> simp [h2, hs.1, hs.2, noHook]
    · by_cases h2 : ch.func = none <;> simp [h2, hch.1, hch.2, noHook]
  · intro swap ch hswap hch
    unfold coroutine_switchC
    split
    · exact hswap _ hch
    · exact hch
  · intro oracle
    induction oracle with
    | nil =>
      intro ch _ hch r hr
      unfold close_and_joinC at hr
      by_cases h : ch.func = none
      · simp only [h, ite_true, if_true, Option.some.injEq] at hr
        subst hr
        exact ⟨hch, hch.1⟩
      · simp [h] at hr
    | cons f rest ih =>
      intro ch hor hch r hr
      unfold close_and_joinC at hr
      by_cases h : ch.func = none
      · simp only [h, ite_true, if_true, Option.some.injEq] at hr
        subst hr
        exact ⟨hch, hch.1⟩
      · simp only [h, ite_false, if_false] at hr
        rw [Option.map_eq_some'] at hr
        obtain ⟨r0, hr0, hmap⟩ := hr
        have hf : noHook (f { ch with value := Val.nil }) :=
          hor f (List.mem_cons_self f rest) _ ⟨hch.1, hch.2⟩
        have := ih _ (fun g hg => hor g (List.mem_cons_of_mem f hg)) hf r0 hr0
        rw [← hmap]
        exact ⟨this.1, this.2⟩

/-! ## Basic lemmas about the interaction layer -/

@[simp]
theorem setCtl_funcActive (s : Sys) (p : Party) (c : Ctl) :
    (s.setCtl p c).funcActive = s.funcActive := by
  cases p <;> rfl

@[simp]
theorem setCtl_value (s : Sys) (p : Party) (c : Ctl) :
    (s.setCtl p c).value = s.value := by
  cases p <;> rfl

@[simp]
theorem setCtl_turn (s : Sys) (p : Party) (c : Ctl) :
    (s.setCtl p c).turn = s.turn := by
  cases p <;> rfl

@[simp]
theorem setCtl_parent_parentCtl (s : Sys) (c : Ctl) :
    (s.setCtl Party.parent c).parentCtl = c := rfl

@[simp]
theorem setCtl_parent_childCtl (s : Sys) (c : Ctl) :
    (s.setCtl Party.parent c).childCtl = s.childCtl := rfl

@[simp]
theorem setCtl_child_parentCtl (s : Sys) (c : Ctl) :
    (s.setCtl Party.child c).parentCtl = s.parentCtl := rfl

@[simp]
theorem setCtl_child_childCtl (s : Sys) (c : Ctl) :
    (s.setCtl Party.child c).childCtl = c := rfl

@[simp]
theorem ctlOf_parent (s : Sys) : s.ctlOf Party.parent = s.parentCtl := rfl

@[simp]
theorem ctlOf_child (s : Sys) : s.ctlOf Party.child = s.childCtl := rfl

@[simp]
theorem peer_parent : Party.parent.peer = Party.child := rfl

@[simp]
theorem peer_child : Party.child.peer = Party.parent := rfl

/-- Inversion of `step`: every successful atomic step has one of the eleven
transition shapes of the protocol. -/
theorem step_inv {s : Sys} {a : Act} {r : Sys × List Ev} (h : step s a = some r) :
    (a = Act.springInit ∧ s.turn = Party.child ∧ s.childCtl = Ctl.springStart ∧
      r = ({ s with value := Val.notFilled, childCtl := Ctl.user }, [Ev.arg s.value])) ∨
    (∃ v, a = Act.yield v ∧ s.ctlOf s.turn = Ctl.user ∧ v ≠ Val.notFilled ∧
      resumable (s.ctlOf s.turn.peer) = true ∧
      r = (({ s with value := v, turn := s.turn.peer }).setCtl s.turn Ctl.suspYield, [Ev.dep v])) ∨
    (a = Act.fromStart ∧ s.ctlOf s.turn = Ctl.user ∧ s.funcActive = true ∧
      s.value = Val.notFilled ∧ resumable (s.ctlOf s.turn.peer) = true ∧
      r = (({ s with turn := s.turn.peer }).setCtl s.turn Ctl.suspFrom, [])) ∨
    (a = Act.fromStart ∧ s.ctlOf s.turn = Ctl.user ∧
      ¬(s.funcActive = true ∧ s.value = Val.notFilled) ∧
      r = (s.setCtl s.turn Ctl.fromTail, [])) ∨
    (a = Act.fromFinish ∧ s.ctlOf s.turn = Ctl.fromTail ∧ s.funcActive = true ∧
      r = (({ s with value := Val.notFilled }).setCtl s.turn Ctl.user, [Ev.con s.value])) ∨
    (a = Act.fromFinish ∧ s.ctlOf s.turn = Ctl.fromTail ∧ s.funcActive = false ∧
      r = (s.setCtl s.turn Ctl.user, [Ev.con Val.nil])) ∨
    (a = Act.switchCall ∧ s.ctlOf s.turn = Ctl.user ∧ s.funcActive = true ∧
      resumable (s.ctlOf s.turn.peer) = true ∧
      r = (({ s with turn := s.turn.peer }).setCtl s.turn Ctl.suspSwitch, [])) ∨
    (a = Act.switchCall ∧ s.ctlOf s.turn = Ctl.user ∧ s.funcActive = false ∧ r = (s, [])) ∨
    (a = Act.entryReturn ∧ s.turn = Party.child ∧ s.childCtl = Ctl.user ∧
      resumable s.parentCtl = true ∧
      r = ({ s with funcActive := false, childCtl := Ctl.dead, turn := Party.parent }, [])) ∨
    (a = Act.resume ∧ (s.ctlOf s.turn = Ctl.suspYield ∨ s.ctlOf s.turn = Ctl.suspSwitch ∨
      s.ctlOf s.turn = Ctl.suspCreate) ∧ r = (s.setCtl s.turn Ctl.user, [])) ∨
    (a = Act.resume ∧ s.ctlOf s.turn = Ctl.suspFrom ∧
      r = (s.setCtl s.turn Ctl.fromTail, [])) := by
  cases a <;> simp only [step] at h
  case springInit =>
    split at h
    · rename_i hc
      exact Or.inl ⟨rfl, hc.1, hc.2, (Option.some.inj h).symm⟩
    · exact Option.noConfusion h
  case yield v =>
    split at h
    · rename_i hc
      exact Or.inr (Or.inl ⟨v, rfl, hc.1, hc.2.1, hc.2.2, (Option.some.inj h).symm⟩)
    · exact Option.noConfusion h
  case fromStart =>
    split at h
    · rename_i hu
      split at h
      · rename_i hcond
        split at h
        · rename_i hres
          exact Or.inr (Or.inr (Or.inl ⟨rfl, hu, hcond.1, hcond.2, hres, (Option.some.inj h).symm⟩))
        · exact Option.noConfusion h
      · rename_i hcond
        exact Or.inr (Or.inr (Or.inr (Or.inl ⟨rfl, hu, hcond, (Option.some.inj h).symm⟩)))
    · exact Option.noConfusion h
  case fromFinish =>
    split at h
    · rename_i hu
      split at h
      · rename_i hf
        exact Or.inr (Or.inr (Or.inr (Or.inr (Or.inl ⟨rfl, hu, hf, (Option.some.inj h).symm⟩))))
      · rename_i hf
        have hf2 : s.funcActive = false := by
          cases hfa : s.funcActive
          · rfl
          · exact absurd hfa hf
        exact Or.inr (Or.inr (Or.inr (Or.inr (Or.inr (Or.inl
          ⟨rfl, hu, hf2, (Option.some.inj h).symm⟩)))))
    · exact Option.noConfusion h
  case switchCall =>
    split at h
    · rename_i hu
      split at h
      · rename_i hf
        split at h
        · rename_i hres
          exact Or.inr (Or.inr (Or.inr (Or.inr (Or.inr (Or.inr (Or.inl
            ⟨rfl, hu, hf, hres, (Option.some.inj h).symm⟩))))))
        · exact Option.noConfusion h
      · rename_i hf
        have hf2 : s.funcActive = false := by
          cases hfa : s.funcActive
          · rfl
          · exact absurd hfa hf
        exact Or.inr (Or.inr (Or.inr (Or.inr (Or.inr (Or.inr (Or.inr (Or.inl
          ⟨rfl, hu, hf2, (Option.some.inj h).symm⟩)))))))
    · exact Option.noConfusion h
  case entryReturn =>
    split at h
    · rename_i hc
      exact Or.inr (Or.inr (Or.inr (Or.inr (Or.inr (Or.inr (Or.inr (Or.inr (Or.inl
        ⟨rfl, hc.1, hc.2.1, hc.2.2, (Option.some.inj h).symm⟩))))))))
    · exact Option.noConfusion h
  case resume =>
    cases hc : s.ctlOf s.turn <;> rw [hc] at h
    case user => exact Option.noConfusion h
    case springStart => exact Option.noConfusion h
    case suspYield =>
      exact Or.inr (Or.inr (Or.inr (Or.inr (Or.inr (Or.inr (Or.inr (Or.inr (Or.inr (Or.inl
        ⟨rfl, Or.inl rfl, (Option.some.inj h).symm⟩)))))))))
    case suspFrom =>
      exact Or.inr (Or.inr (Or.inr (Or.inr (Or.inr (Or.inr (Or.inr (Or.inr (Or.inr (Or.inr
        ⟨rfl, rfl, (Option.some.inj h).symm⟩)))))))))
    case fromTail => exact Option.noConfusion h
    case suspSwitch =>
      exact Or.inr (Or.inr (Or.inr (Or.inr (Or.inr (Or.inr (Or.inr (Or.inr (Or.inr (Or.inl
        ⟨rfl, Or.inr (Or.inl rfl), (Option.some.inj h).symm⟩)))))))))
    case suspCreate =>
      exact Or.inr (Or.inr (Or.inr (Or.inr (Or.inr (Or.inr (Or.inr (Or.inr (Or.inr (Or.inl
        ⟨rfl, Or.inr (Or.inr rfl), (Option.some.inj h).symm⟩)))))))))
    case dead => exact Option.noConfusion h

@[simp]
theorem isUserDatum_nil : Val.nil.isUserDatum = false := rfl

@[simp]
theorem isUserDatum_notFilled : Val.notFilled.isUserDatum = false := rfl

@[simp]
theorem isUserDatum_ptr (n : Nat) : (Val.ptr n).isUserDatum = true := rfl

@[simp]
theorem userDeps_nil : userDeps [] = [] := rfl

@[simp]
theorem userDeps_arg (v : Val) : userDeps [Ev.arg v] = [] := rfl

@[simp]
theorem userDeps_dep (v : Val) :
    userDeps [Ev.dep v] = if v.isUserDatum then [v] else [] := by
  cases v <;> rfl

@[simp]
theorem userDeps_con (v : Val) : userDeps [Ev.con v] = [] := rfl

@[simp]
theorem userCons_nil : userCons [] = [] := rfl

@[simp]
theorem userCons_arg (v : Val) : userCons [Ev.arg v] = [] := rfl

@[simp]
theorem userCons_dep (v : Val) : userCons [Ev.dep v] = [] := rfl

@[simp]
theorem userCons_con (v : Val) :
    userCons [Ev.con v] = if v.isUserDatum then [v] else [] := by
  cases v <;> rfl

theorem userDeps_append (a b : List Ev) : userDeps (a ++ b) = userDeps a ++ userDeps b :=
  List.filterMap_append a b _

theorem userCons_append (a b : List Ev) : userCons (a ++ b) = userCons a ++ userCons b :=
  List.filterMap_append a b _

/-- Well-formedness: before the springboard prologue has run, control is
necessarily still with the child — nothing else can run first. -/
def WF (s : Sys) : Prop := s.childCtl = Ctl.springStart → s.turn = Party.child

theorem WF_init (arg : Val) : WF (initSys arg) := fun _ => rfl

theorem childCtl_ne_spring_of_parent {s : Sys} (hwf : WF s) (ht : s.turn = Party.parent) :
    s.childCtl ≠ Ctl.springStart := by
  intro hc
  rw [hwf hc] at ht
  exact Party.noConfusion ht

theorem WF_step {s : Sys} {a : Act} {r : Sys × List Ev}
    (h : step s a = some r) (hwf : WF s) : WF r.1 := by
  rcases step_inv h with
    ⟨ha, ht, hc, hr⟩ | ⟨v, ha, hu, hv, hres, hr⟩ | ⟨ha, hu, hf, hval, hres, hr⟩ |
    ⟨ha, hu, hng, hr⟩ | ⟨ha, hu, hf, hr⟩ | ⟨ha, hu, hf, hr⟩ | ⟨ha, hu, hf, hres, hr⟩ |
    ⟨ha, hu, hf, hr⟩ | ⟨ha, ht, hc, hres, hr⟩ | ⟨ha, hc, hr⟩ | ⟨ha, hc, hr⟩ <;>
    subst hr <;> intro hx
  · simp at hx
  · cases hturn : s.turn
    · simp [hturn]
    · rw [hturn] at hx
      simp at hx
  · cases hturn : s.turn
    · simp [hturn]
    · rw [hturn] at hx
      simp at hx
  · cases hturn : s.turn
    · simp only [setCtl_turn] at hx ⊢
      rw [hturn] at hx
      simp at hx
      exact absurd hx (childCtl_ne_spring_of_parent hwf hturn)
    · rw [hturn] at hx
      simp at hx
  · cases hturn : s.turn
    · simp only [setCtl_turn] at hx ⊢
      rw [hturn] at hx
      simp at hx
      exact absurd hx (childCtl_ne_spring_of_parent hwf hturn)
    · rw [hturn] at hx
      simp at hx
  · cases hturn : s.turn
    · simp only [setCtl_turn] at hx ⊢
      rw [hturn] at hx
      simp at hx
      exact absurd hx (childCtl_ne_spring_of_parent hwf hturn)
    · rw [hturn] at hx
      simp at hx
  · cases hturn : s.turn
    · simp [hturn]
    · rw [hturn] at hx
      simp at hx
  · exact hwf hx
  · simp at hx
  · cases hturn : s.turn
    · simp only [setCtl_turn] at hx ⊢
      rw [hturn] at hx
      simp at hx
      exact absurd hx (childCtl_ne_spring_of_parent hwf hturn)
    · rw [hturn] at hx
      simp at hx
  · cases hturn : s.turn
    · simp only [setCtl_turn] at hx ⊢
      rw [hturn] at hx
      simp at hx
      exact absurd hx (childCtl_ne_spring_of_parent hwf hturn)
    · rw [hturn] at hx
      simp at hx

/-- One disciplined step conserves deposited user data: the data deposited
so far equal the data consumed so far followed by the datum still pending
in the slot. -/
theorem step_delivery {s : Sys} {a : Act} {r : Sys × List Ev}
    (h : step s a = some r) (hwf : WF s)
    (hdisc : ∀ v, a = Act.yield v → s.value = Val.notFilled) :
    pendingOf s ++ userDeps r.2 = userCons r.2 ++ pendingOf r.1 := by
  rcases step_inv h with
    ⟨ha, ht, hc, hr⟩ | ⟨v, ha, hu, hv, hres, hr⟩ | ⟨ha, hu, hf, hval, hres, hr⟩ |
    ⟨ha, hu, hng, hr⟩ | ⟨ha, hu, hf, hr⟩ | ⟨ha, hu, hf, hr⟩ | ⟨ha, hu, hf, hres, hr⟩ |
    ⟨ha, hu, hf, hr⟩ | ⟨ha, ht, hc, hres, hr⟩ | ⟨ha, hc, hr⟩ | ⟨ha, hc, hr⟩ <;>
    subst hr
  -- springboard prologue: the pending argument goes to the entry function
  · simp [pendingOf, hc]
  -- yield: the slot was empty (discipline) and now holds the deposit
  · have hval : s.value = Val.notFilled := hdisc v ha
    cases hturn : s.turn
    · have hcc := childCtl_ne_spring_of_parent hwf hturn
      simp [pendingOf, hval, hturn, hcc]
    · rw [hturn, ctlOf_child] at hu
      simp [pendingOf, hval, hturn, hu]
  -- from, swapping: nothing moves
  · cases hturn : s.turn
    · have hcc := childCtl_ne_spring_of_parent hwf hturn
      simp [pendingOf, hval, hturn, hcc]
    · rw [hturn, ctlOf_child] at hu
      simp [pendingOf, hval, hturn, hu]
  -- from, no swap needed: nothing moves
  · cases hturn : s.turn
    · have hcc := childCtl_ne_spring_of_parent hwf hturn
      simp [pendingOf, hturn, hcc]
    · rw [hturn, ctlOf_child] at hu
      simp [pendingOf, hturn, hu]
  -- from tail, entry active: the pending datum is consumed
  · cases hturn : s.turn
    · have hcc := childCtl_ne_spring_of_parent hwf hturn
      simp [pendingOf, hturn, hcc]
    · rw [hturn, ctlOf_child] at hu
      simp [pendingOf, hturn, hu]
  -- from tail, entry returned: from returns nil, nothing moves
  · cases hturn : s.turn
    · have hcc := childCtl_ne_spring_of_parent hwf hturn
      simp [pendingOf, hturn, hcc]
    · rw [hturn, ctlOf_child] at hu
      simp [pendingOf, hturn, hu]
  -- switch, swapping: nothing moves
  · cases hturn : s.turn
    · have hcc := childCtl_ne_spring_of_parent hwf hturn
      simp [pendingOf, hturn, hcc]
    · rw [hturn, ctlOf_child] at hu
      simp [pendingOf, hturn, hu]
  -- switch, entry returned: no-op
  · simp
  -- springboard epilogue: nothing moves
  · simp [pendingOf, hc]
  -- resumptions: nothing moves
  · cases hturn : s.turn
    · have hcc := childCtl_ne_spring_of_parent hwf hturn
      simp [pendingOf, hturn, hcc]
    · rw [hturn, ctlOf_child] at hc
      rcases hc with hc | hc | hc <;> simp [pendingOf, hturn, hc]
  · cases hturn : s.turn
    · have hcc := childCtl_ne_spring_of_parent hwf hturn
      simp [pendingOf, hturn, hcc]
    · rw [hturn, ctlOf_child] at hc
      simp [pendingOf, hturn, hc]

/-- Unfolding of `run` on a nonempty action list, in monadic form. -/
theorem run_cons (s : Sys) (a : Act) (rest : List Act) :
    run s (a :: rest) =
      (step s a).bind (fun p => (run p.1 rest).map (fun q => (q.1, p.2 ++ q.2))) := by
  cases hstep : step s a with
  | none => simp [run, hstep]
  | some p =>
    obtain ⟨s1, e1⟩ := p
    cases hrun : run s1 rest with
    | none => simp [run, hstep, hrun]
    | some q =>
      obtain ⟨s2, e2⟩ := q
      simp [run, hstep, hrun]

/-- Delivery conservation over a whole disciplined run. -/
theorem run_delivery : ∀ (acts : List Act) {s : Sys} {r : Sys × List Ev},
    WF s → run s acts = some r → disciplinedRun s acts = true →
    pendingOf s ++ userDeps r.2 = userCons r.2 ++ pendingOf r.1 := by
  intro acts
  induction acts with
  | nil =>
    intro s r _ h _
    simp only [run, Option.some.injEq] at h
    subst h
    simp
  | cons a rest ih =>
    intro s r hwf h hd
    rw [run_cons, Option.bind_eq_some] at h
    obtain ⟨⟨s1, e1⟩, hstep, h⟩ := h
    rw [Option.map_eq_some'] at h
    obtain ⟨⟨s2, e2⟩, hrun, hr⟩ := h
    subst hr
    simp only [disciplinedRun, hstep, Bool.and_eq_true] at hd
    have hdisc : ∀ v, a = Act.yield v → s.value = Val.notFilled := by
      intro v hv
      subst hv
      exact of_decide_eq_true hd.1
    have h1 := step_delivery hstep hwf hdisc
    have h2 := ih (WF_step hstep hwf) hrun hd.2
    simp only [userDeps_append, userCons_append]
    rw [← List.append_assoc, h1, List.append_assoc, h2, List.append_assoc]

/-- C2 (amended): for every channel and every sequence of API operations in
which each `yield_to` deposit finds the value slot logically empty (no
deposit overwrites an unconsumed datum), the non-nil data deposited by
`yield_to` are exactly the non-nil data returned by `from`, in order,
followed by at most one datum — the most recent deposit — still awaiting
consumption in the value slot: nothing is duplicated and nothing is lost. -/
theorem single_delivery_disciplined (arg : Val) (acts : List Act) (s1 : Sys) (evs : List Ev)
    (h : run (initSys arg) acts = some (s1, evs))
    (hd : disciplinedRun (initSys arg) acts = true) :
    userDeps evs = userCons evs ++ pendingOf s1 := by
  have hres := run_delivery acts (WF_init arg) h hd
  simpa [pendingOf, initSys] using hres

/-- Witness for C2 on a concrete disciplined run: the child yields `ptr 1`,
the parent consumes it. -/
theorem single_delivery_disciplined_witness :
    run (initSys Val.nil)
        [Act.springInit, Act.yield (Val.ptr 1), Act.resume, Act.fromStart, Act.fromFinish]
      = some (⟨true, Val.notFilled, Party.parent, Ctl.user, Ctl.suspYield⟩,
          [Ev.arg Val.nil, Ev.dep (Val.ptr 1), Ev.con (Val.ptr 1)]) ∧
    disciplinedRun (initSys Val.nil)
        [Act.springInit, Act.yield (Val.ptr 1), Act.resume, Act.fromStart, Act.fromFinish]
      = true ∧
    userDeps [Ev.arg Val.nil, Ev.dep (Val.ptr 1), Ev.con (Val.ptr 1)]
      = userCons [Ev.arg Val.nil, Ev.dep (Val.ptr 1), Ev.con (Val.ptr 1)] ++
        pendingOf ⟨true, Val.notFilled, Party.parent, Ctl.user, Ctl.suspYield⟩ :=
  ⟨by decide, by decide,
    single_delivery_disciplined Val.nil
      [Act.springInit, Act.yield (Val.ptr 1), Act.resume, Act.fromStart, Act.fromFinish]
      _ _ (by decide) (by decide)⟩

/-- C2 counterexample: the claim quantifies over every sequence of API
operations, but `yield_to` overwrites the value slot unconditionally.  In
this legal sequence the child yields `ptr 1`, the parent — resumed and
without consuming — yields `ptr 2`, and the child then consumes: the
deposits are `[ptr 1, ptr 2]`, yet only `ptr 2` is ever returned by `from`
and the slot ends empty, so the datum `ptr 1` is lost and is consumed by no
`from` call. -/
theorem single_delivery_counterexample :
    (run (initSys Val.nil)
        [Act.springInit, Act.yield (Val.ptr 1), Act.resume, Act.yield (Val.ptr 2),
          Act.resume, Act.fromStart, Act.fromFinish]).map
        (fun p => (userDeps p.2, userCons p.2, pendingOf p.1))
      = some ([Val.ptr 1, Val.ptr 2], [Val.ptr 2], []) := by
  decide

/-- Once the child context is dead (the springboard has performed its final
swap), every further enabled step keeps it dead and keeps control with the
parent: the child never runs again. -/
theorem step_dead {s : Sys} {a : Act} {r : Sys × List Ev}
    (h : step s a = some r) (hd : s.childCtl = Ctl.dead) :
    r.1.childCtl = Ctl.dead ∧ r.1.turn = Party.parent := by
  rcases step_inv h with
    ⟨ha, ht, hc, hr⟩ | ⟨v, ha, hu, hv, hres, hr⟩ | ⟨ha, hu, hf, hval, hres, hr⟩ |
    ⟨ha, hu, hng, hr⟩ | ⟨ha, hu, hf, hr⟩ | ⟨ha, hu, hf, hr⟩ | ⟨ha, hu, hf, hres, hr⟩ |
    ⟨ha, hu, hf, hr⟩ | ⟨ha, ht, hc, hres, hr⟩ | ⟨ha, hc, hr⟩ | ⟨ha, hc, hr⟩ <;>
    subst hr
  · rw [hd] at hc
    exact Ctl.noConfusion hc
  · cases hturn : s.turn
    · rw [hturn, peer_parent, ctlOf_child, hd] at hres
      simp [resumable] at hres
    · rw [hturn, ctlOf_child, hd] at hu
      exact Ctl.noConfusion hu
  · cases hturn : s.turn
    · rw [hturn, peer_parent, ctlOf_child, hd] at hres
      simp [resumable] at hres
    · rw [hturn, ctlOf_child, hd] at hu
      exact Ctl.noConfusion hu
  · cases hturn : s.turn
    · simp [hturn, hd]
    · rw [hturn, ctlOf_child, hd] at hu
      exact Ctl.noConfusion hu
  · cases hturn : s.turn
    · simp [hturn, hd]
    · rw [hturn, ctlOf_child, hd] at hu
      exact Ctl.noConfusion hu
  · cases hturn : s.turn
    · simp [hturn, hd]
    · rw [hturn, ctlOf_child, hd] at hu
      exact Ctl.noConfusion hu
  · cases hturn : s.turn
    · rw [hturn, peer_parent, ctlOf_child, hd] at hres
      simp [resumable] at hres
    · rw [hturn, ctlOf_child, hd] at hu
      exact Ctl.noConfusion hu
  · cases hturn : s.turn
    · exact ⟨hd, rfl⟩
    · rw [hturn, ctlOf_child, hd] at hu
      exact Ctl.noConfusion hu
  · rw [hd] at hc
    exact Ctl.noConfusion hc
  · cases hturn : s.turn
    · simp [hturn, hd]
    · rw [hturn, ctlOf_child, hd] at hc
      rcases hc with hc | hc | hc <;> exact Ctl.noConfusion hc
  · cases hturn : s.turn
    · simp [hturn, hd]
    · rw [hturn, ctlOf_child, hd] at hc
      exact Ctl.noConfusion hc

/-- C3: the springboard performs exactly these steps in this order: it
reads the user argument out of the value slot and replaces the slot with
the empty sentinel before invoking the child entry function on that
argument; when the entry function returns it sets the channel entry
pointer to the empty marker; it then performs one final swap back to the
parent — and it never returns: once the child context is dead, every
further step keeps it dead and keeps control with the parent. -/
theorem springboard_meets_spec :
    (∀ (entry : ChannelC → Val → ChannelC) (swap : ChannelC → ChannelC) (ch : ChannelC),
      springboardC entry swap ch
        = swap { entry { ch with value := Val.notFilled } ch.value with func := none }) ∧
    (∀ (s : Sys) (a : Act) (r : Sys × List Ev), step s a = some r →
      s.childCtl = Ctl.dead → r.1.childCtl = Ctl.dead ∧ r.1.turn = Party.parent) :=
  ⟨fun _ _ _ => rfl, fun _ _ _ h hd => step_dead h hd⟩

/-- Witness for C3's dead-child conjunct at a concrete input: the parent
finishes a `from` call on a channel whose child is dead; the child context
stays dead and control stays with the parent. -/
theorem springboard_meets_spec_witness :
    step ⟨false, Val.nil, Party.parent, Ctl.fromTail, Ctl.dead⟩ Act.fromFinish
      = some (⟨false, Val.nil, Party.parent, Ctl.user, Ctl.dead⟩, [Ev.con Val.nil]) ∧
    ((⟨false, Val.nil, Party.parent, Ctl.user, Ctl.dead⟩, [Ev.con Val.nil]) :
        Sys × List Ev).1.childCtl = Ctl.dead ∧
    ((⟨false, Val.nil, Party.parent, Ctl.user, Ctl.dead⟩, [Ev.con Val.nil]) :
        Sys × List Ev).1.turn = Party.parent :=
  ⟨by decide,
    (springboard_meets_spec.2 ⟨false, Val.nil, Party.parent, Ctl.fromTail, Ctl.dead⟩
      Act.fromFinish (⟨false, Val.nil, Party.parent, Ctl.user, Ctl.dead⟩, [Ev.con Val.nil])
      (by decide) (by decide)).1,
    (springboard_meets_spec.2 ⟨false, Val.nil, Party.parent, Ctl.fromTail, Ctl.dead⟩
      Act.fromFinish (⟨false, Val.nil, Party.parent, Ctl.user, Ctl.dead⟩, [Ev.con Val.nil])
      (by decide) (by decide)).2⟩

/-- C4: if one party deposits the nil marker with `yield_to(ctx, nil)`
while its peer is suspended inside `from(ctx)`, then that `from` call
resumes, returns the nil marker to the peer, and leaves the slot empty —
in both directions (parent to child and child to parent). -/
theorem nil_end_of_stream :
    (∀ s : Sys, s.turn = Party.parent → s.parentCtl = Ctl.user →
      s.childCtl = Ctl.suspFrom → s.funcActive = true →
      run s [Act.yield Val.nil, Act.resume, Act.fromFinish]
        = some (⟨true, Val.notFilled, Party.child, Ctl.suspYield, Ctl.user⟩,
            [Ev.dep Val.nil, Ev.con Val.nil])) ∧
    (∀ s : Sys, s.turn = Party.child → s.childCtl = Ctl.user →
      s.parentCtl = Ctl.suspFrom → s.funcActive = true →
      run s [Act.yield Val.nil, Act.resume, Act.fromFinish]
        = some (⟨true, Val.notFilled, Party.parent, Ctl.user, Ctl.suspYield⟩,
            [Ev.dep Val.nil, Ev.con Val.nil])) := by
  constructor
  · intro s ht hp hc hf
    obtain ⟨fa, v, t, pc, cc⟩ := s
    dsimp only at ht hp hc hf
    subst ht hp hc hf
    rfl
  · intro s ht hc hp hf
    obtain ⟨fa, v, t, pc, cc⟩ := s
    dsimp only at ht hp hc hf
    subst ht hp hc hf
    rfl

/-- Witness for C4 at concrete inputs in both directions. -/
theorem nil_end_of_stream_witness :
    run ⟨true, Val.ptr 3, Party.parent, Ctl.user, Ctl.suspFrom⟩
        [Act.yield Val.nil, Act.resume, Act.fromFinish]
      = some (⟨true, Val.notFilled, Party.child, Ctl.suspYield, Ctl.user⟩,
          [Ev.dep Val.nil, Ev.con Val.nil]) ∧
    run ⟨true, Val.ptr 4, Party.child, Ctl.suspFrom, Ctl.user⟩
        [Act.yield Val.nil, Act.resume, Act.fromFinish]
      = some (⟨true, Val.notFilled, Party.parent, Ctl.user, Ctl.suspYield⟩,
          [Ev.dep Val.nil, Ev.con Val.nil]) :=
  ⟨nil_end_of_stream.1 _ rfl rfl rfl rfl, nil_end_of_stream.2 _ rfl rfl rfl rfl⟩

/-- The child is suspended at an API suspension point (or its context is
dead, the entry function having returned). -/
def childAtSuspension (s : Sys) : Prop :=
  s.childCtl = Ctl.suspYield ∨ s.childCtl = Ctl.suspFrom ∨
    s.childCtl = Ctl.suspSwitch ∨ s.childCtl = Ctl.dead

/-- Whenever control is with the parent, the child is suspended at an API
suspension point inside (or at the end of) its entry function —
preservation under one step. -/
theorem step_parent_turn {s : Sys} {a : Act} {r : Sys × List Ev}
    (h : step s a = some r)
    (hinv : s.turn = Party.parent → childAtSuspension s) :
    r.1.turn = Party.parent → childAtSuspension r.1 := by
  rcases step_inv h with
    ⟨ha, ht, hc, hr⟩ | ⟨v, ha, hu, hv, hres, hr⟩ | ⟨ha, hu, hf, hval, hres, hr⟩ |
    ⟨ha, hu, hng, hr⟩ | ⟨ha, hu, hf, hr⟩ | ⟨ha, hu, hf, hr⟩ | ⟨ha, hu, hf, hres, hr⟩ |
    ⟨ha, hu, hf, hr⟩ | ⟨ha, ht, hc, hres, hr⟩ | ⟨ha, hc, hr⟩ | ⟨ha, hc, hr⟩ <;>
    subst hr <;> intro hx
  · rw [ht] at hx
    exact Party.noConfusion hx
  · cases hturn : s.turn
    · simp [hturn] at hx
    · simp [childAtSuspension, hturn]
  · cases hturn : s.turn
    · simp [hturn] at hx
    · simp [childAtSuspension, hturn]
  · cases hturn : s.turn
    · have := hinv hturn
      simpa [childAtSuspension, hturn] using this
    · simp only [setCtl_turn] at hx
      rw [hturn] at hx
      exact Party.noConfusion hx
  · cases hturn : s.turn
    · have := hinv hturn
      simpa [childAtSuspension, hturn] using this
    · simp only [setCtl_turn] at hx
      rw [hturn] at hx
      exact Party.noConfusion hx
  · cases hturn : s.turn
    · have := hinv hturn
      simpa [childAtSuspension, hturn] using this
    · simp only [setCtl_turn] at hx
      rw [hturn] at hx
      exact Party.noConfusion hx
  · cases hturn : s.turn
    · simp [hturn] at hx
    · simp [childAtSuspension, hturn]
  · exact hinv hx
  · simp [childAtSuspension]
  · cases hturn : s.turn
    · have := hinv hturn
      simpa [childAtSuspension, hturn] using this
    · simp only [setCtl_turn] at hx
      rw [hturn] at hx
      exact Party.noConfusion hx
  · cases hturn : s.turn
    · have := hinv hturn
      simpa [childAtSuspension, hturn] using this
    · simp only [setCtl_turn] at hx
      rw [hturn] at hx
      exact Party.noConfusion hx

/-- The parent-running invariant over a whole run. -/
theorem run_parent_turn : ∀ (acts : List Act) {s : Sys} {r : Sys × List Ev},
    run s acts = some r → (s.turn = Party.parent → childAtSuspension s) →
    r.1.turn = Party.parent → childAtSuspension r.1 := by
  intro acts
  induction acts with
  | nil =>
    intro s r h hinv
    simp only [run, Option.some.injEq] at h
    subst h
    exact hinv
  | cons a rest ih =>
    intro s r h hinv
    rw [run_cons, Option.bind_eq_some] at h
    obtain ⟨⟨s1, e1⟩, hstep, h⟩ := h
    rw [Option.map_eq_some'] at h
    obtain ⟨⟨s2, e2⟩, hrun, hr⟩ := h
    subst hr
    have hres := ih hrun (step_parent_turn hstep hinv)
    exact hres

/-- C6 (amended): creation hands control to the child first, and creation
returns only at the child's first swap back: in every run from the
creation state, whenever control is with the parent — in particular at the
moment `coroutine_create_given_memory` returns — the child has already
executed the springboard prologue and its entry function up to the child's
first suspension point, where it now sits (suspended in a yield, a from, a
switch, or already terminated). -/
theorem creation_returns_after_child_ran (arg : Val) (acts : List Act)
    (s1 : Sys) (evs : List Ev) (h : run (initSys arg) acts = some (s1, evs))
    (ht : s1.turn = Party.parent) :
    s1.childCtl = Ctl.suspYield ∨ s1.childCtl = Ctl.suspFrom ∨
      s1.childCtl = Ctl.suspSwitch ∨ s1.childCtl = Ctl.dead := by
  have hinv : (initSys arg).turn = Party.parent → childAtSuspension (initSys arg) := by
    intro hx
    exact Party.noConfusion hx
  exact run_parent_turn acts h hinv ht

/-- Witness for C6's amended statement at a concrete run: the child yields
once; control is with the parent and the child sits suspended in its yield. -/
theorem creation_returns_after_child_ran_witness :
    run (initSys Val.nil) [Act.springInit, Act.yield (Val.ptr 1)]
      = some (⟨true, Val.ptr 1, Party.parent, Ctl.suspCreate, Ctl.suspYield⟩,
          [Ev.arg Val.nil, Ev.dep (Val.ptr 1)]) ∧
    ((⟨true, Val.ptr 1, Party.parent, Ctl.suspCreate, Ctl.suspYield⟩ : Sys).childCtl
        = Ctl.suspYield ∨
      (⟨true, Val.ptr 1, Party.parent, Ctl.suspCreate, Ctl.suspYield⟩ : Sys).childCtl
        = Ctl.suspFrom ∨
      (⟨true, Val.ptr 1, Party.parent, Ctl.suspCreate, Ctl.suspYield⟩ : Sys).childCtl
        = Ctl.suspSwitch ∨
      (⟨true, Val.ptr 1, Party.parent, Ctl.suspCreate, Ctl.suspYield⟩ : Sys).childCtl
        = Ctl.dead) :=
  ⟨by decide,
    creation_returns_after_child_ran Val.nil [Act.springInit, Act.yield (Val.ptr 1)]
      ⟨true, Val.ptr 1, Party.parent, Ctl.suspCreate, Ctl.suspYield⟩
      [Ev.arg Val.nil, Ev.dep (Val.ptr 1)] (by decide) (by decide)⟩

/-- C6 counterexample: the claim says that at the moment creation returns
no part of the child entry function has executed.  But in the shortest run
in which the parent regains control and leaves the constructor
(`parentCtl = user`), the child has already executed the springboard
prologue and a `yield_to` from inside its entry function: the deposit
`ptr 7` — an observable effect of entry code — was emitted before creation
returned. -/
theorem creation_suspended_child_counterexample :
    (run (initSys (Val.ptr 5)) [Act.springInit, Act.yield (Val.ptr 7), Act.resume]).map
        (fun p => (decide (p.1.parentCtl = Ctl.user), userDeps p.2))
      = some (true, [Val.ptr 7]) := by
  decide

/-- Recogniser for the springboard-epilogue step. -/
def isEntryReturn : Act → Bool
  | .entryReturn => true
  | _ => false

/-- The only step that changes `funcActive` is the springboard epilogue,
and it changes it from active to empty, leaving the child context dead. -/
theorem step_func_change {s : Sys} {a : Act} {r : Sys × List Ev}
    (h : step s a = some r) (hne : r.1.funcActive ≠ s.funcActive) :
    a = Act.entryReturn ∧ s.funcActive = true ∧ r.1.funcActive = false ∧
      s.childCtl = Ctl.user ∧ r.1.childCtl = Ctl.dead := by
  rcases step_inv h with
    ⟨ha, ht, hc, hr⟩ | ⟨v, ha, hu, hv, hres, hr⟩ | ⟨ha, hu, hf, hval, hres, hr⟩ |
    ⟨ha, hu, hng, hr⟩ | ⟨ha, hu, hf, hr⟩ | ⟨ha, hu, hf, hr⟩ | ⟨ha, hu, hf, hres, hr⟩ |
    ⟨ha, hu, hf, hr⟩ | ⟨ha, ht, hc, hres, hr⟩ | ⟨ha, hc, hr⟩ | ⟨ha, hc, hr⟩ <;>
    subst hr
  · simp at hne
  · simp at hne
  · simp at hne
  · simp at hne
  · simp at hne
  · simp at hne
  · simp at hne
  · simp at hne
  · cases hfa : s.funcActive
    · rw [hfa] at hne
      simp at hne
    · exact ⟨ha, rfl, rfl, hc, rfl⟩
  · simp at hne
  · simp at hne

/-- `funcActive` never goes back from empty to active over a run. -/
theorem run_funcActive_mono : ∀ (acts : List Act) {s : Sys} {r : Sys × List Ev},
    run s acts = some r → s.funcActive = false → r.1.funcActive = false := by
  intro acts
  induction acts with
  | nil =>
    intro s r h hf
    simp only [run, Option.some.injEq] at h
    subst h
    exact hf
  | cons a rest ih =>
    intro s r h hf
    rw [run_cons, Option.bind_eq_some] at h
    obtain ⟨⟨s1, e1⟩, hstep, h⟩ := h
    rw [Option.map_eq_some'] at h
    obtain ⟨⟨s2, e2⟩, hrun, hr⟩ := h
    subst hr
    have hs1 : s1.funcActive = false := by
      by_cases heq : ((s1, e1) : Sys × List Ev).1.funcActive = s.funcActive
      · rw [heq]
        exact hf
      · exact (step_func_change hstep heq).2.2.1
    have hres := ih hrun hs1
    exact hres

/-- After the child context is dead, no further run can contain a
springboard epilogue. -/
theorem run_dead_entryReturn_count : ∀ (acts : List Act) {s : Sys} {r : Sys × List Ev},
    s.childCtl = Ctl.dead → run s acts = some r →
    acts.countP isEntryReturn = 0 := by
  intro acts
  induction acts with
  | nil =>
    intro s r _ _
    rfl
  | cons a rest ih =>
    intro s r hd h
    rw [run_cons, Option.bind_eq_some] at h
    obtain ⟨⟨s1, e1⟩, hstep, h⟩ := h
    rw [Option.map_eq_some'] at h
    obtain ⟨⟨s2, e2⟩, hrun, hr⟩ := h
    have hne : isEntryReturn a = false := by
      rcases step_inv hstep with
        ⟨ha, _, _, _⟩ | ⟨v, ha, _, _, _, _⟩ | ⟨ha, _, _, _, _, _⟩ |
        ⟨ha, _, _, _⟩ | ⟨ha, _, _, _⟩ | ⟨ha, _, _, _⟩ | ⟨ha, _, _, _, _⟩ |
        ⟨ha, _, _, _⟩ | ⟨ha, _, hc, _, _⟩ | ⟨ha, _, _⟩ | ⟨ha, _, _⟩ <;> subst ha
      · rfl
      · rfl
      · rfl
      · rfl
      · rfl
      · rfl
      · rfl
      · rfl
      · rw [hd] at hc
        exact Ctl.noConfusion hc
      · rfl
      · rfl
    rw [List.countP_cons, hne]
    have hd1 : ((s1, e1) : Sys × List Ev).1.childCtl = Ctl.dead := (step_dead hstep hd).1
    have := ih hd1 hrun
    simpa using this

/-- Over any successful run, the springboard epilogue executes at most
once. -/
theorem run_entryReturn_le_one : ∀ (acts : List Act) {s : Sys} {r : Sys × List Ev},
    run s acts = some r → acts.countP isEntryReturn ≤ 1 := by
  intro acts
  induction acts with
  | nil =>
    intro s r _
    simp [List.countP_nil]
  | cons a rest ih =>
    intro s r h
    rw [run_cons, Option.bind_eq_some] at h
    obtain ⟨⟨s1, e1⟩, hstep, h⟩ := h
    rw [Option.map_eq_some'] at h
    obtain ⟨⟨s2, e2⟩, hrun, hr⟩ := h
    rw [List.countP_cons]
    cases hE : isEntryReturn a
    · have := ih hrun
      simpa using this
    · have ha : a = Act.entryReturn := by
        cases a <;> first | rfl | exact Bool.noConfusion hE
      subst ha
      have hd1 : ((s1, e1) : Sys × List Ev).1.childCtl = Ctl.dead := by
        rcases step_inv hstep with
          ⟨ha, _, _, _⟩ | ⟨v, ha, _, _, _, _⟩ | ⟨ha, _, _, _, _, _⟩ |
          ⟨ha, _, _, _⟩ | ⟨ha, _, _, _⟩ | ⟨ha, _, _, _⟩ | ⟨ha, _, _, _, _⟩ |
          ⟨ha, _, _, _⟩ | ⟨ha, _, _, _, hr1⟩ | ⟨ha, _, _⟩ | ⟨ha, _, _⟩
        · exact Act.noConfusion ha
        · exact Act.noConfusion ha
        · exact Act.noConfusion ha
        · exact Act.noConfusion ha
        · exact Act.noConfusion ha
        · exact Act.noConfusion ha
        · exact Act.noConfusion ha
        · exact Act.noConfusion ha
        · rw [hr1]
        · exact Act.noConfusion ha
        · exact Act.noConfusion ha
      have hrest := run_dead_entryReturn_count rest hd1 hrun
      simp [hrest]

/-- C7: over every sequence of protocol steps, the channel entry pointer
becomes empty at most once; the only step that changes it is the
springboard epilogue (`func = NULL` immediately before the final swap back
to the parent), which turns it from active to empty and kills the child
context; and no step — `yield_to`, `from`, `close_and_join`'s loop, or
`coroutine_switch` — ever sets it back: once empty it stays empty. -/
theorem entry_empties_at_most_once :
    (∀ (s : Sys) (a : Act) (r : Sys × List Ev), step s a = some r →
      r.1.funcActive ≠ s.funcActive →
      a = Act.entryReturn ∧ s.funcActive = true ∧ r.1.funcActive = false ∧
        s.childCtl = Ctl.user ∧ r.1.childCtl = Ctl.dead) ∧
    (∀ (acts : List Act) (s : Sys) (r : Sys × List Ev), run s acts = some r →
      s.funcActive = false → r.1.funcActive = false) ∧
    (∀ (acts : List Act) (s : Sys) (r : Sys × List Ev), run s acts = some r →
      acts.countP isEntryReturn ≤ 1) :=
  ⟨fun _ _ _ h hne => step_func_change h hne,
    fun acts _ _ h hf => run_funcActive_mono acts h hf,
    fun acts _ _ h => run_entryReturn_le_one acts h⟩

/-- Witness for C7 at a concrete run containing the springboard epilogue. -/
theorem entry_empties_at_most_once_witness :
    run (initSys Val.nil) [Act.springInit, Act.entryReturn, Act.resume, Act.fromStart,
        Act.fromFinish]
      = some (⟨false, Val.notFilled, Party.parent, Ctl.user, Ctl.dead⟩,
          [Ev.arg Val.nil, Ev.con Val.nil]) ∧
    [Act.springInit, Act.entryReturn, Act.resume, Act.fromStart,
        Act.fromFinish].countP isEntryReturn ≤ 1 :=
  ⟨by decide,
    entry_empties_at_most_once.2.2
      [Act.springInit, Act.entryReturn, Act.resume, Act.fromStart, Act.fromFinish]
      (initSys Val.nil)
      (⟨false, Val.notFilled, Party.parent, Ctl.user, Ctl.dead⟩,
        [Ev.arg Val.nil, Ev.con Val.nil])
      (by decide)⟩

/-- Witness for C5 at concrete inputs: an already-terminated channel
(zero yields, hook invoked), and an active channel whose well-behaved
child terminates on the first nil deposit (one yield, hook invoked). -/
theorem close_and_join_meets_spec_witness :
    (⟨none, Val.nil, Val.nil, some 2⟩ : ChannelC).func = none ∧
    close_and_joinC [] ⟨none, Val.nil, Val.nil, some 2⟩
      = some (⟨none, Val.nil, Val.nil, some 2⟩, 0, some 2) ∧
    (⟨some 7, Val.notFilled, Val.nil, some 2⟩ : ChannelC).func ≠ none ∧
    ((fun c : ChannelC => { c with func := none }) { (⟨some 7, Val.notFilled, Val.nil, some 2⟩ : ChannelC) with value := Val.nil }).func = none ∧
    close_and_joinC [fun c : ChannelC => { c with func := none }] ⟨some 7, Val.notFilled, Val.nil, some 2⟩
      = some ((fun c : ChannelC => { c with func := none }) { (⟨some 7, Val.notFilled, Val.nil, some 2⟩ : ChannelC) with value := Val.nil }, 1,
          ((fun c : ChannelC => { c with func := none }) { (⟨some 7, Val.notFilled, Val.nil, some 2⟩ : ChannelC) with value := Val.nil }).free_func) :=
  ⟨by decide,
    close_and_join_meets_spec.1 [] ⟨none, Val.nil, Val.nil, some 2⟩ (by decide),
    by decide, by decide,
    close_and_join_meets_spec.2.1 (fun c : ChannelC => { c with func := none }) []
      ⟨some 7, Val.notFilled, Val.nil, some 2⟩ (by decide) (by decide)⟩

/-- Witness for C10 at a concrete input: a `from` call on a hook-free
channel with an identity swap keeps it hook-free and releases nothing. -/
theorem given_memory_channel_never_released_witness :
    noHook (fromC (fun c => c) ⟨some 1, Val.ptr 2, Val.nil, none⟩).channel ∧
    (fromC (fun c => c) ⟨some 1, Val.ptr 2, Val.nil, none⟩).released = none :=
  given_memory_channel_never_released.2.2.1 (fun c => c)
    ⟨some 1, Val.ptr 2, Val.nil, none⟩ (fun _ hc => hc) ⟨rfl, rfl⟩

/-! ## The kernel-thread (pthread) fallback backend

Translated from `coroutine_using_pthreads.c`.  Its `struct channel` has no
release hook; instead it carries the switching mechanism — a shared mutex,
a condition variable, the child's thread id, and the token `in_child`.
`context_switch` flips `in_child`, signals the peer and waits on the
condition variable until `in_child` is back to its value at entry, so the
mutex/condvar ping-pong enforces exactly the strict alternation that
`SWAP_CONTEXT` gives the native backend.  The observable fields (`func`,
`value`) and all API bodies (`yield_to`, `from`, `coroutine_switch`,
springboard prologue and epilogue, `close_and_join`'s loop) are the same
code as the native backend, with `context_switch` in place of
`SWAP_CONTEXT`; on termination the pthread springboard stores
`in_child = 0` (control to the parent) and the thread exits, and `from` /
`close_and_join` reclaim via `pthread_join` + `free` instead of the
release hook — a resource-management internality with no observable
event. -/

/-- Whole-channel state of the pthread backend: `inChild` is the
`in_child` token (`true` = the child runs). -/
structure SysP where
  funcActive : Bool
  value : Val
  inChild : Bool
  parentCtl : Ctl
  childCtl : Ctl
deriving DecidableEq

/-- The party currently running, as encoded by the `in_child` token. -/
def SysP.turnOf (s : SysP) : Party :=
  if s.inChild then Party.child else Party.parent

/-- Control location of a given party. -/
def SysP.ctlOf (s : SysP) : Party → Ctl
  | .parent => s.parentCtl
  | .child => s.childCtl

/-- Replace the control location of a given party. -/
def SysP.setCtl (s : SysP) : Party → Ctl → SysP
  | .parent, c => { s with parentCtl := c }
  | .child, c => { s with childCtl := c }

/-- One atomic step of the pthread backend.  Each `context_switch` flips
the `in_child` token (handing the mutex to the peer); a party whose peer
can never flip it back (dead child) blocks forever, so that step is
unavailable, exactly like the native backend's undefined swap into a dead
context. -/
def stepP (s : SysP) (a : Act) : Option (SysP × List Ev) :=
  match a with
  | .springInit =>
    if s.turnOf = Party.child ∧ s.childCtl = Ctl.springStart then
      some ({ s with value := Val.notFilled, childCtl := Ctl.user }, [Ev.arg s.value])
    else none
  | .yield v =>
    if s.ctlOf s.turnOf = Ctl.user ∧ v ≠ Val.notFilled ∧ resumable (s.ctlOf s.turnOf.peer) then
      some (({ s with value := v, inChild := !s.inChild }).setCtl s.turnOf Ctl.suspYield,
        [Ev.dep v])
    else none
  | .fromStart =>
    if s.ctlOf s.turnOf = Ctl.user then
      if s.funcActive = true ∧ s.value = Val.notFilled then
        if resumable (s.ctlOf s.turnOf.peer) then
          some (({ s with inChild := !s.inChild }).setCtl s.turnOf Ctl.suspFrom, [])
        else none
      else some (s.setCtl s.turnOf Ctl.fromTail, [])
    else none
  | .fromFinish =>
    if s.ctlOf s.turnOf = Ctl.fromTail then
      if s.funcActive = true then
        some (({ s with value := Val.notFilled }).setCtl s.turnOf Ctl.user, [Ev.con s.value])
      else some (s.setCtl s.turnOf Ctl.user, [Ev.con Val.nil])
    else none
  | .switchCall =>
    if s.ctlOf s.turnOf = Ctl.user then
      if s.funcActive = true then
        if resumable (s.ctlOf s.turnOf.peer) then
          some (({ s with inChild := !s.inChild }).setCtl s.turnOf Ctl.suspSwitch, [])
        else none
      else some (s, [])
    else none
  | .entryReturn =>
    if s.turnOf = Party.child ∧ s.childCtl = Ctl.user ∧ resumable s.parentCtl then
      some ({ s with funcActive := false, childCtl := Ctl.dead, inChild := false }, [])
    else none
  | .resume =>
    match s.ctlOf s.turnOf with
    | .suspYield => some (s.setCtl s.turnOf Ctl.user, [])
    | .suspSwitch => some (s.setCtl s.turnOf Ctl.user, [])
    | .suspCreate => some (s.setCtl s.turnOf Ctl.user, [])
    | .suspFrom => some (s.setCtl s.turnOf Ctl.fromTail, [])
    | _ => none

/-- Run a list of atomic steps of the pthread backend. -/
def runP : SysP → List Act → Option (SysP × List Ev)
  | s, [] => some (s, [])
  | s, a :: rest =>
    match stepP s a with
    | none => none
    | some (s1, e1) =>
      match runP s1 rest with
      | none => none
      | some (s2, e2) => some (s2, e1 ++ e2)

/-- Channel state after the pthread `coroutine_create` has initialised the
record (`in_child = 1`), started the child thread, and begun waiting on
the condition variable: the child holds the mutex and is about to run the
springboard. -/
def initSysP (arg : Val) : SysP :=
  { funcActive := true, value := arg, inChild := true,
    parentCtl := Ctl.suspCreate, childCtl := Ctl.springStart }

/-- Abstraction of a pthread-backend state to a native-backend state: the
`in_child` token is exactly the turn; everything else is identical. -/
def absP (s : SysP) : Sys :=
  { funcActive := s.funcActive, value := s.value, turn := s.turnOf,
    parentCtl := s.parentCtl, childCtl := s.childCtl }

/-- One-step bisimulation: under the abstraction `absP`, the pthread
backend and the native backend take exactly the same steps and emit
exactly the same events. -/
theorem stepP_abs (sp : SysP) (a : Act) :
    step (absP sp) a = (stepP sp a).map (fun p => (absP p.1, p.2)) := by
  cases hin : sp.inChild <;> cases a
  case false.resume =>
    cases hp : sp.parentCtl <;>
      simp [step, stepP, absP, SysP.turnOf, SysP.ctlOf, SysP.setCtl, Sys.setCtl, hin, hp]
  case true.resume =>
    cases hc : sp.childCtl <;>
      simp [step, stepP, absP, SysP.turnOf, SysP.ctlOf, SysP.setCtl, Sys.setCtl, hin, hc]
  all_goals
    simp [step, stepP, absP, SysP.turnOf, SysP.ctlOf, SysP.setCtl, Sys.setCtl, hin,
      resumable] <;>
    split_ifs <;>
    simp_all [SysP.turnOf]

/-- Unfolding of `runP` on a nonempty action list, in monadic form. -/
theorem runP_cons (s : SysP) (a : Act) (rest : List Act) :
    runP s (a :: rest) =
      (stepP s a).bind (fun p => (runP p.1 rest).map (fun q => (q.1, p.2 ++ q.2))) := by
  cases hstep : stepP s a with
  | none => simp [runP, hstep]
  | some p =>
    obtain ⟨s1, e1⟩ := p
    cases hrun : runP s1 rest with
    | none => simp [runP, hstep, hrun]
    | some q =>
      obtain ⟨s2, e2⟩ := q
      simp [runP, hstep, hrun]

/-- Whole-run bisimulation of the two backends. -/
theorem runP_abs : ∀ (acts : List Act) (sp : SysP),
    run (absP sp) acts = (runP sp acts).map (fun p => (absP p.1, p.2)) := by
  intro acts
  induction acts with
  | nil => intro sp; rfl
  | cons a rest ih =>
    intro sp
    rw [run_cons, runP_cons, stepP_abs]
    cases hstep : stepP sp a with
    | none => rfl
    | some p =>
      obtain ⟨sp1, e1⟩ := p
      simp only [Option.map_some', Option.some_bind]
      rw [ih sp1]
      cases hrun : runP sp1 rest with
      | none => rfl
      | some q =>
        obtain ⟨sq, eq2⟩ := q
        rfl

/-- C9: for programs that obey the API contract, the kernel-thread
(pthread) backend is observationally indistinguishable from the native
backend, modulo timing.  Under the abstraction that reads the `in_child`
token as the running party and forgets the mutex/condvar/thread machinery,
the creation states coincide, every atomic protocol step is enabled in one
backend exactly when it is enabled in the other and yields corresponding
states, and every run emits the identical event sequence — the same
arguments delivered to child entry functions, the same `yield_to`
deposits, the same `from` returns, with termination signalled by the same
nil returns. -/
theorem pthread_backend_equiv :
    (∀ arg : Val, absP (initSysP arg) = initSys arg) ∧
    (∀ (sp : SysP) (a : Act),
      step (absP sp) a = (stepP sp a).map (fun p => (absP p.1, p.2))) ∧
    (∀ (acts : List Act) (arg : Val),
      run (initSys arg) acts = (runP (initSysP arg) acts).map (fun p => (absP p.1, p.2))) :=
  ⟨fun _ => rfl, stepP_abs, fun acts arg => runP_abs acts (initSysP arg)⟩

end Coroutine
